import Mathlib

/-!
Shallow embedding of `src/preprocessing/automate_Shelo_Rahma_Sari.py`
(the `preprocess` pipeline for the Bank Direct Marketing dataset).

A loaded table (`DF`) is row-major: a header of named, typed columns and a
list of rows aligned with it.  Cell values are rationals, strings, or null
(pandas NaN).  The pipeline stages of `preprocess` are embedded one by one:

  * `dropDuplicates`   — `df.drop_duplicates()` (keep first occurrence);
  * `encodeY`          — `df["y"].map({"yes": 1, "no": 0})`;
  * `outlierStage`     — IQR filter on `age` using pandas' default
                         linear-interpolation `quantile`;
  * `binStage`         — `pd.cut(df["age"], bins=[0,30,45,60,100], labels=...,
                         include_lowest=True)` followed by dropping `age`;
  * `getDummies`       — `pd.get_dummies(X, drop_first=True)` (numeric columns
                         pass through first, then dummy blocks per
                         non-numeric column, categories of object columns in
                         lexicographic order, first category dropped);
  * `scaleCol`         — `StandardScaler().fit_transform` (population
                         mean / standard deviation, i.e. ddof = 0), modelled
                         over the reals;
  * `preprocessCore`   — the whole in-memory pipeline; a `.error` result
                         models the raised exception, in which case the file
                         write at the end of `preprocess` never happens, and
                         an `.ok` result carries exactly the data written to
                         the output CSV (`finalCols`).
-/

namespace BankPrep

/-- A cell of the table: numeric, string, or null (pandas `NaN`). -/
inductive Value where
  | num (q : ℚ)
  | str (s : String)
  | null
deriving DecidableEq, Repr

/-- The dtype of a column: numeric, plain string (pandas `object`), or
pandas `Categorical` with a fixed list of category levels. -/
inductive Dtype where
  | numeric
  | strDt
  | cat (levels : List String)
deriving DecidableEq, Repr

/-- A row-major dataframe: named typed columns and rows aligned by index. -/
structure DF where
  header : List (String × Dtype)
  rows : List (List Value)
deriving DecidableEq, Repr

/-- Index of the first column with the given name (pandas label lookup). -/
def colIdx (df : DF) (name : String) : Option Nat :=
  df.header.findIdx? (fun c => c.1 == name)

/-- The values of column `i`, top to bottom. -/
def colVals (df : DF) (i : Nat) : List Value :=
  df.rows.map (fun r => r.getD i Value.null)

/-- `drop_duplicates()` keeping the first occurrence of each row
(accumulator = rows already seen). -/
def dropDupAux (seen : List (List Value)) : List (List Value) → List (List Value)
  | [] => []
  | r :: rs => if r ∈ seen then dropDupAux seen rs else r :: dropDupAux (r :: seen) rs

/-- `df.drop_duplicates()`: exact duplicate rows removed, first kept, order
of survivors preserved. -/
def dropDuplicates (rows : List (List Value)) : List (List Value) :=
  dropDupAux [] rows

/-- `df["y"].map({"yes": 1, "no": 0})` on one cell: any value outside the
dictionary becomes null (`NaN`). -/
def encodeY (v : Value) : Value :=
  match v with
  | .str "yes" => .num 1
  | .str "no" => .num 0
  | _ => .null

/-- The raw `y` values the mapping accepts. -/
def validY (v : Value) : Prop :=
  v = .str "yes" ∨ v = .str "no"

instance (v : Value) : Decidable (validY v) := by
  unfold validY; infer_instance

/-- Ascending sort of rationals (`Series.quantile` sorts the data). -/
def sortQ (xs : List ℚ) : List ℚ := xs.insertionSort (· ≤ ·)

/-- `Series.quantile(q)` with pandas' default linear interpolation:
with the sorted values `s₀ ≤ … ≤ sₙ₋₁` and `h = q·(n−1)`, the result is
`s_⌊h⌋ + (h − ⌊h⌋)·(s_⌊h⌋₊₁ − s_⌊h⌋)`. -/
def quantile (q : ℚ) (xs : List ℚ) : ℚ :=
  let s := sortQ xs
  let n := s.length
  if n = 0 then 0
  else
    let h : ℚ := q * ((n : ℚ) - 1)
    let i : Nat := (⌊h⌋).toNat
    let lo := s.getD i 0
    let hi := s.getD (i + 1) lo
    lo + (h - (i : ℚ)) * (hi - lo)

/-- The numeric entries of a value list (pandas numeric ops skip `NaN`). -/
def numEntries (vals : List Value) : List ℚ :=
  vals.filterMap (fun v => match v with | .num q => some q | _ => none)

/-- The lower IQR fence around the `age` column, as computed in stage 4 of
`preprocess`: `batas_bawah = Q1 − 1.5·IQR` with `IQR = Q3 − Q1`. -/
def ageLb (df : DF) (ia : Nat) : ℚ :=
  quantile (1/4) (numEntries (colVals df ia))
    - 3/2 * (quantile (3/4) (numEntries (colVals df ia))
        - quantile (1/4) (numEntries (colVals df ia)))

/-- The upper IQR fence: `batas_atas = Q3 + 1.5·IQR`. -/
def ageUb (df : DF) (ia : Nat) : ℚ :=
  quantile (3/4) (numEntries (colVals df ia))
    + 3/2 * (quantile (3/4) (numEntries (colVals df ia))
        - quantile (1/4) (numEntries (colVals df ia)))

/-- Stage 4 of `preprocess`: if enabled and an `age` column exists, keep only
the rows whose `age` lies in `[Q1 − 1.5·IQR, Q3 + 1.5·IQR]`
(`df[(df["age"] >= batas_bawah) & (df["age"] <= batas_atas)]`; a null `age`
compares false and is dropped, as in pandas). -/
def outlierStage (handle : Bool) (df : DF) : DF :=
  match colIdx df "age" with
  | some ia =>
    if handle then
      { df with rows := df.rows.filter (fun r =>
          match r.getD ia Value.null with
          | .num q => decide (ageLb df ia ≤ q ∧ q ≤ ageUb df ia)
          | _ => false) }
    else df
  | none => df

/-- The four `pd.cut` labels, in the order they are given to `pd.cut`. -/
def ageGroupLevels : List String := ["Young", "Adult", "Senior", "Elder"]

/-- `pd.cut(v, bins=[0,30,45,60,100], labels=..., include_lowest=True)` on a
single cell: buckets `[0,30]`, `(30,45]`, `(45,60]`, `(60,100]`; anything
else (including null) becomes null. -/
def cutAge (v : Value) : Value :=
  match v with
  | .num q =>
    if 0 ≤ q ∧ q ≤ 30 then .str "Young"
    else if 30 < q ∧ q ≤ 45 then .str "Adult"
    else if 45 < q ∧ q ≤ 60 then .str "Senior"
    else if 60 < q ∧ q ≤ 100 then .str "Elder"
    else .null
  | _ => .null

/-- Drop the first column with the given label (with the labels unique this
is `df.drop(columns=[name])`). -/
def dropColName (name : String) (df : DF) : DF :=
  match colIdx df name with
  | some i => { header := df.header.eraseIdx i,
                rows := df.rows.map (fun r => r.eraseIdx i) }
  | none => df

/-- Stage 5 of `preprocess`: if enabled and `age` exists, append the
categorical `age_group` column (`df["age_group"] = pd.cut(df["age"], ...)`)
and drop `age`. -/
def binStage (binAge : Bool) (df : DF) : DF :=
  match colIdx df "age" with
  | some ia =>
    if binAge then
      dropColName "age"
        { header := df.header ++ [("age_group", Dtype.cat ageGroupLevels)],
          rows := df.rows.map (fun r => r ++ [cutAge (r.getD ia Value.null)]) }
    else df
  | none => df

/-- Lexicographic order on character lists (by character code). -/
def charListLe : List Char → List Char → Bool
  | [], _ => true
  | _ :: _, [] => false
  | a :: as, b :: bs => if a < b then true else if b < a then false else charListLe as bs

/-- Lexicographic `≤` on strings. -/
def strLeB (a b : String) : Bool := charListLe a.data b.data

/-- Insertion into a `strLeB`-sorted list. -/
def insertStr (x : String) : List String → List String
  | [] => [x]
  | y :: ys => if strLeB x y then x :: y :: ys else y :: insertStr x ys

/-- Insertion sort of strings, lexicographic ascending. -/
def sortStr : List String → List String
  | [] => []
  | x :: xs => insertStr x (sortStr xs)

/-- The categories `pd.get_dummies` uses for an `object` column: the distinct
observed strings, sorted lexicographically (nulls excluded). -/
def strCats (vals : List Value) : List String :=
  sortStr (vals.filterMap (fun v => match v with
    | .str s => some s | _ => none)).dedup

/-- One indicator (dummy) column: 1 where the cell equals category `c`,
else 0 (a null cell gets 0 in every indicator column). -/
def indicatorCol (c : String) (vals : List Value) : List ℚ :=
  vals.map (fun v => if v = Value.str c then (1 : ℚ) else 0)

/-- Numeric view of a cell (columns that reach the scaler are numeric). -/
def valToQ (v : Value) : ℚ :=
  match v with
  | .num q => q
  | _ => 0

/-- What `pd.get_dummies(·, drop_first=True)` makes of one column:
numeric columns pass through; an `object` column becomes one indicator per
distinct observed category except the lexicographically first; a
`Categorical` column becomes one indicator per declared level except the
first level, whether or not the level is observed.  Names are
`<original>_<category>`. -/
def dummiesOfCol (name : String) (dt : Dtype) (vals : List Value) :
    List (String × List ℚ) :=
  match dt with
  | .numeric => [(name, vals.map valToQ)]
  | .strDt => ((strCats vals).drop 1).map
      (fun c => (name ++ "_" ++ c, indicatorCol c vals))
  | .cat levels => (levels.drop 1).map
      (fun c => (name ++ "_" ++ c, indicatorCol c vals))

/-- The columns of `df` as `(name, dtype, values)` triples, in order. -/
def colTriples (df : DF) : List (String × Dtype × List Value) :=
  df.header.enum.map (fun p => (p.2.1, p.2.2, colVals df p.1))

/-- Whether a dtype is numeric (pandas: not expanded by `get_dummies`). -/
def isNumericDt : Dtype → Bool
  | .numeric => true
  | _ => false

/-- `pd.get_dummies(X, drop_first=True)` on a dataframe: the numeric columns
first in their original order, then the dummy blocks of the non-numeric
columns in original column order. -/
def getDummies (df : DF) : List (String × List ℚ) :=
  ((colTriples df).filter (fun t => isNumericDt t.2.1)).flatMap
      (fun t => dummiesOfCol t.1 t.2.1 t.2.2)
    ++ ((colTriples df).filter (fun t => !isNumericDt t.2.1)).flatMap
      (fun t => dummiesOfCol t.1 t.2.1 t.2.2)

/-- The two data-quality errors `preprocess` can raise after loading:
`KeyError` for a missing `y` column, `ValueError` for a `y` value outside
`{"yes","no"}`. -/
inductive PErr where
  | missingTarget
  | invalidTarget
deriving DecidableEq, Repr

/-- The in-memory result just before scaling: the one-hot encoded feature
columns `X_encoded` and the encoded target values `y`. -/
structure Encoded where
  cols : List (String × List ℚ)
  yOut : List ℚ
deriving DecidableEq, Repr

/-- Stage 2 of `preprocess`: `df.drop_duplicates()` when enabled. -/
def stage1 (dropDup : Bool) (df : DF) : DF :=
  if dropDup then { df with rows := dropDuplicates df.rows } else df

/-- Stage 3 of `preprocess`: `df["y"] = df["y"].map({"yes": 1, "no": 0})`. -/
def stage3 (iy : Nat) (df : DF) : DF :=
  { df with rows := df.rows.map (fun r => r.set iy (encodeY (r.getD iy Value.null))) }

/-- The table state right before the feature/target split, given the index
`iy` of the `y` column: deduplicated, `y` encoded, outliers filtered, ages
binned. -/
def pipeDF (dropDup handleOut binAge : Bool) (iy : Nat) (df : DF) : DF :=
  binStage binAge (outlierStage handleOut (stage3 iy (stage1 dropDup df)))

/-- The whole in-memory pipeline of `preprocess` (everything between
`pd.read_csv` and `StandardScaler`): deduplicate, check for `y`, encode and
validate `y`, filter outliers, bin ages, split off `y`, one-hot encode.
`.error` models the raised exception (so `to_csv` is never reached);
`.ok` carries `X_encoded` and the target column. -/
def preprocessCore (dropDup handleOut binAge : Bool) (df : DF) :
    Except PErr Encoded :=
  match colIdx (stage1 dropDup df) "y" with
  | none => .error .missingTarget
  | some iy =>
    if (stage3 iy (stage1 dropDup df)).rows.any
        (fun r => r.getD iy Value.null == Value.null) then
      .error .invalidTarget
    else
      .ok { cols := getDummies (dropColName "y" (pipeDF dropDup handleOut binAge iy df)),
            yOut := (match colIdx (pipeDF dropDup handleOut binAge iy df) "y" with
                     | some iy2 =>
                        (colVals (pipeDF dropDup handleOut binAge iy df) iy2).map valToQ
                     | none => []) }

/-- Mean of a rational column (`x̄ = Σx / n`; pandas/NumPy mean). -/
def meanQ (xs : List ℚ) : ℚ := xs.sum / xs.length

/-- Population variance (`StandardScaler` uses ddof = 0). -/
def varQ (xs : List ℚ) : ℚ :=
  (xs.map (fun x => (x - meanQ xs) ^ 2)).sum / xs.length

/-- Mean of a real column. -/
noncomputable def meanR (xs : List ℝ) : ℝ := xs.sum / xs.length

/-- Population variance of a real column. -/
noncomputable def varR (xs : List ℝ) : ℝ :=
  (xs.map (fun x => (x - meanR xs) ^ 2)).sum / xs.length

/-- Population standard deviation of a real column. -/
noncomputable def stddevR (xs : List ℝ) : ℝ := Real.sqrt (varR xs)

/-- `StandardScaler().fit_transform` on one column, in exact real
arithmetic: `(x − mean) / √variance`. -/
noncomputable def scaleCol (xs : List ℚ) : List ℝ :=
  xs.map (fun x : ℚ => ((x : ℝ) - (meanQ xs : ℝ)) / Real.sqrt ((varQ xs : ℝ)))

/-- The columns written to the output CSV: every feature column of
`X_encoded` standardized, then the unscaled `y` column reattached
positionally (`processed_df["y"] = y.values`). -/
noncomputable def finalCols (e : Encoded) : List (String × List ℝ) :=
  e.cols.map (fun c => (c.1, scaleCol c.2))
    ++ [("y", e.yOut.map (fun q : ℚ => (q : ℝ)))]

deriving instance DecidableEq for Except

/-! ### Basic lemmas about the table operations -/

/-- A table is well-formed when every row has one cell per header column. -/
def WellFormed (df : DF) : Prop :=
  ∀ r ∈ df.rows, r.length = df.header.length

instance (df : DF) : Decidable (WellFormed df) := by
  unfold WellFormed; infer_instance

theorem dropDupAux_sublist (rs : List (List Value)) :
    ∀ seen, List.Sublist (dropDupAux seen rs) rs := by
  induction rs with
  | nil => intro seen; simp [dropDupAux]
  | cons r rs ih =>
    intro seen
    simp only [dropDupAux]
    by_cases h1 : r ∈ seen
    · rw [if_pos h1]
      exact (ih seen).trans (List.sublist_cons_self r rs)
    · rw [if_neg h1]
      exact (ih (r :: seen)).cons₂ r

theorem dropDuplicates_sublist (rs : List (List Value)) :
    List.Sublist (dropDuplicates rs) rs :=
  dropDupAux_sublist rs []

theorem mem_dropDupAux (x : List Value) (rs : List (List Value)) :
    ∀ seen, (x ∈ dropDupAux seen rs ↔ x ∈ rs ∧ x ∉ seen) := by
  induction rs with
  | nil => intro seen; simp [dropDupAux]
  | cons r rs ih =>
    intro seen
    simp only [dropDupAux]
    by_cases h1 : r ∈ seen
    · rw [if_pos h1, ih]
      constructor
      · rintro ⟨hx, hs⟩
        exact ⟨List.mem_cons_of_mem r hx, hs⟩
      · rintro ⟨hx, hs⟩
        rcases List.mem_cons.mp hx with h2 | h2
        · exact absurd (h2 ▸ h1) hs
        · exact ⟨h2, hs⟩
    · rw [if_neg h1]
      constructor
      · intro hx
        rcases List.mem_cons.mp hx with h2 | h2
        · exact ⟨h2 ▸ List.mem_cons_self x rs, h2 ▸ h1⟩
        · rcases (ih (r :: seen)).mp h2 with ⟨h3, h4⟩
          exact ⟨List.mem_cons_of_mem r h3,
                 fun h5 => h4 (List.mem_cons_of_mem r h5)⟩
      · rintro ⟨hx, hs⟩
        rcases List.mem_cons.mp hx with h2 | h2
        · exact h2 ▸ List.mem_cons_self r _
        · by_cases h3 : x = r
          · exact h3 ▸ List.mem_cons_self r _
          · exact List.mem_cons_of_mem r ((ih (r :: seen)).mpr
              ⟨h2, by simp [h3, hs]⟩)

theorem mem_dropDuplicates (x : List Value) (rs : List (List Value)) :
    x ∈ dropDuplicates rs ↔ x ∈ rs := by
  rw [dropDuplicates, mem_dropDupAux]
  simp

theorem getD_set_self {α : Type} (l : List α) (i : Nat) (a d : α) :
    (l.set i a).getD i d = if i < l.length then a else d := by
  induction l generalizing i with
  | nil => simp
  | cons x xs ih =>
    cases i with
    | zero => simp
    | succ n => simpa using ih n

theorem stage1_header (d : Bool) (df : DF) : (stage1 d df).header = df.header := by
  unfold stage1; cases d <;> rfl

theorem colIdx_stage1 (d : Bool) (df : DF) (n : String) :
    colIdx (stage1 d df) n = colIdx df n := by
  unfold colIdx; rw [stage1_header]

theorem mem_stage1_rows (d : Bool) (df : DF) (r : List Value) :
    r ∈ (stage1 d df).rows ↔ r ∈ df.rows := by
  unfold stage1; cases d with
  | false => simp
  | true => simpa using mem_dropDuplicates r df.rows

theorem encodeY_eq_null_iff (v : Value) : encodeY v = Value.null ↔ ¬ validY v := by
  unfold encodeY validY
  split <;> simp_all

theorem validY_getD_lt (r : List Value) (iy : Nat)
    (h : validY (r.getD iy Value.null)) : iy < r.length := by
  by_contra h1
  rw [List.getD_eq_default _ _ (Nat.le_of_not_lt h1)] at h
  rcases h with h2 | h2 <;> exact Value.noConfusion h2

/-- After `stage3`, the `y` cell of the image of row `r` is `encodeY` of the
original `y` cell. -/
theorem getD_stage3_row (r : List Value) (iy : Nat) :
    (r.set iy (encodeY (r.getD iy Value.null))).getD iy Value.null
      = encodeY (r.getD iy Value.null) := by
  rw [getD_set_self]
  by_cases h1 : iy < r.length
  · rw [if_pos h1]
  · rw [if_neg h1, List.getD_eq_default _ _ (Nat.le_of_not_lt h1)]
    rfl

/-- If every raw `y` value is valid, the pipeline reaches the `.ok` branch. -/
theorem core_ok_of_validY (d h b : Bool) (df : DF) (iy : Nat)
    (hy : colIdx df "y" = some iy)
    (hv : ∀ r ∈ df.rows, validY (r.getD iy Value.null)) :
    ∃ e, preprocessCore d h b df = .ok e := by
  have h1 : colIdx (stage1 d df) "y" = some iy := (colIdx_stage1 d df "y").trans hy
  have h2 : (stage3 iy (stage1 d df)).rows.any
      (fun r => r.getD iy Value.null == Value.null) = false := by
    rw [List.any_eq_false]
    intro r hr
    rcases List.mem_map.mp hr with ⟨r0, hr0, hr0e⟩
    have h3 : validY (r0.getD iy Value.null) :=
      hv r0 ((mem_stage1_rows d df r0).mp hr0)
    rw [← hr0e, getD_stage3_row]
    rcases h3 with h4 | h4 <;> rw [h4] <;> decide
  simp only [preprocessCore, h1, h2, Bool.false_eq_true, if_false]
  exact ⟨_, rfl⟩

/-- C1: in `preprocess`, `y` is mapped `"yes"→1`, `"no"→0`; whenever some
raw `y` value lies outside `{"yes","no"}`, the pipeline fails with the
invalid-target-value error (for every flag combination, i.e. before the
outlier, binning, split, encoding, scaling and persistence stages can act,
so no invalid row is silently dropped and no output is produced); when all
`y` values are valid the validation passes and the pipeline succeeds. -/
theorem C1_invalid_target_error (d h b : Bool) (df : DF) (iy : Nat)
    (hy : colIdx df "y" = some iy) :
    (encodeY (.str "yes") = .num 1 ∧ encodeY (.str "no") = .num 0)
    ∧ ((∃ r ∈ df.rows, ¬ validY (r.getD iy Value.null)) →
        preprocessCore d h b df = .error .invalidTarget)
    ∧ ((∀ r ∈ df.rows, validY (r.getD iy Value.null)) →
        ∃ e, preprocessCore d h b df = .ok e) := by
  refine ⟨⟨rfl, rfl⟩, ?_, core_ok_of_validY d h b df iy hy⟩
  rintro ⟨r0, hr0, hbad⟩
  have h1 : colIdx (stage1 d df) "y" = some iy := (colIdx_stage1 d df "y").trans hy
  have h2 : (stage3 iy (stage1 d df)).rows.any
      (fun r => r.getD iy Value.null == Value.null) = true := by
    rw [List.any_eq_true]
    refine ⟨r0.set iy (encodeY (r0.getD iy Value.null)), ?_, ?_⟩
    · exact List.mem_map.mpr ⟨r0, (mem_stage1_rows d df r0).mpr hr0, rfl⟩
    · rw [getD_stage3_row, (encodeY_eq_null_iff _).mpr hbad]
      rfl
  simp only [preprocessCore, h1, h2, if_true]

/-- Concrete run of `C1_invalid_target_error`: a table whose only `y` value
is `"maybe"`. -/
def cdfBadY : DF :=
  { header := [("age", Dtype.numeric), ("y", Dtype.strDt)],
    rows := [[.num 30, .str "maybe"]] }

theorem C1_invalid_target_error_witness :
    colIdx cdfBadY "y" = some 1
    ∧ ((encodeY (.str "yes") = .num 1 ∧ encodeY (.str "no") = .num 0)
      ∧ ((∃ r ∈ cdfBadY.rows, ¬ validY (r.getD 1 Value.null)) →
          preprocessCore true true true cdfBadY = .error .invalidTarget)
      ∧ ((∀ r ∈ cdfBadY.rows, validY (r.getD 1 Value.null)) →
          ∃ e, preprocessCore true true true cdfBadY = .ok e)) :=
  ⟨by decide, C1_invalid_target_error true true true cdfBadY 1 (by decide)⟩

theorem colIdx_eq_none_iff (df : DF) (n : String) :
    colIdx df n = none ↔ ∀ p ∈ df.header, p.1 ≠ n := by
  unfold colIdx
  rw [List.findIdx?_eq_none_iff]
  constructor
  · intro h1 p hp
    have := h1 p hp
    simpa using this
  · intro h1 p hp
    simpa using h1 p hp

/-- C2: for every loaded table without a `y` column, `preprocess` fails with
the missing-target-column error for every flag combination; since the
result is an error, the final write step is never reached and no output
file is produced. -/
theorem C2_missing_target_error (d h b : Bool) (df : DF)
    (hy : ∀ p ∈ df.header, p.1 ≠ "y") :
    preprocessCore d h b df = .error .missingTarget := by
  have h1 : colIdx (stage1 d df) "y" = none := by
    rw [colIdx_stage1, colIdx_eq_none_iff]
    exact hy
  simp only [preprocessCore, h1]

/-- Concrete run of `C2_missing_target_error`: a one-column table with no
`y`. -/
def cdfNoY : DF :=
  { header := [("age", Dtype.numeric)], rows := [[.num 30], [.num 41]] }

theorem C2_missing_target_error_witness :
    (∀ p ∈ cdfNoY.header, p.1 ≠ "y")
    ∧ preprocessCore true true true cdfNoY = .error .missingTarget :=
  ⟨by decide, C2_missing_target_error true true true cdfNoY (by decide)⟩

/-- C3: with the outlier flag enabled and an `age` column present, stage 4
keeps exactly the rows whose `age` lies in the closed interval
`[Q1 − 1.5·IQR, Q3 + 1.5·IQR]` (both fences from the
linear-interpolation quantiles of the age values current at that point,
computed over the sorted data); with the flag disabled or the column
absent the table is unchanged. -/
theorem C3_outlier_filter (df : DF) (ia : Nat)
    (ha : colIdx df "age" = some ia) :
    ((outlierStage true df).header = df.header
      ∧ (outlierStage true df).rows = df.rows.filter (fun r =>
          match r.getD ia Value.null with
          | .num q => decide (q ∈ Set.Icc (ageLb df ia) (ageUb df ia))
          | _ => false)
      ∧ List.Sorted (· ≤ ·) (sortQ (numEntries (colVals df ia)))
      ∧ (sortQ (numEntries (colVals df ia))).Perm (numEntries (colVals df ia)))
    ∧ outlierStage false df = df
    ∧ (∀ (df2 : DF) (hb : Bool),
        colIdx df2 "age" = none → outlierStage hb df2 = df2) := by
  refine ⟨⟨?_, ?_, ?_, ?_⟩, ?_, ?_⟩
  · simp only [outlierStage, ha, if_true]
  · simp only [outlierStage, ha, if_true]
    apply List.filter_congr
    intro r _
    cases r.getD ia Value.null with
    | num q =>
      simp only [decide_eq_decide, Set.mem_Icc, ageLb, ageUb]
    | str s => rfl
    | null => rfl
  · exact List.sorted_insertionSort _ _
  · exact List.perm_insertionSort _ _
  · cases hc : colIdx df "age" with
    | none => simp only [outlierStage, hc]
    | some j => simp only [outlierStage, hc, Bool.false_eq_true, if_false]
  · intro df2 hb h2
    cases hb <;> simp only [outlierStage, h2]

/-- Concrete run of `C3_outlier_filter`: ages 25, 70, 40 give
`Q1 = 32.5`, `Q3 = 55`, fences `−1.25` and `88.75`; no row is removed. -/
def cdfAges : DF :=
  { header := [("age", Dtype.numeric), ("y", Dtype.strDt)],
    rows := [[.num 25, .str "yes"], [.num 70, .str "no"],
             [.num 40, .str "yes"]] }

theorem C3_outlier_filter_witness :
    colIdx cdfAges "age" = some 0
    ∧ ageLb cdfAges 0 = -5/4 ∧ ageUb cdfAges 0 = 355/4
    ∧ (outlierStage true cdfAges).rows = cdfAges.rows := by
  have hlb : ageLb cdfAges 0 = -5/4 := by
    norm_num [ageLb, quantile, sortQ, List.insertionSort, List.orderedInsert,
      numEntries, colVals, cdfAges]
  have hub : ageUb cdfAges 0 = 355/4 := by
    norm_num [ageUb, quantile, sortQ, List.insertionSort, List.orderedInsert,
      numEntries, colVals, cdfAges]
  refine ⟨by decide, hlb, hub, ?_⟩
  rw [(C3_outlier_filter cdfAges 0 (by decide)).1.2.1]
  simp only [Set.mem_Icc, hlb, hub]
  norm_num [cdfAges, List.filter]

/-! ### Tracking columns and row counts through the stages -/

theorem stage3_header (iy : Nat) (df : DF) : (stage3 iy df).header = df.header := rfl

theorem outlierStage_header (h : Bool) (df : DF) :
    (outlierStage h df).header = df.header := by
  unfold outlierStage
  cases hc : colIdx df "age" with
  | none => rfl
  | some ia => cases h <;> simp

theorem colIdx_of_header_eq {df1 df2 : DF} (h : df1.header = df2.header)
    (n : String) : colIdx df1 n = colIdx df2 n := by
  unfold colIdx; rw [h]

theorem stage3_rows_length (iy : Nat) (df : DF) :
    (stage3 iy df).rows.length = df.rows.length := by
  simp [stage3]

theorem outlierStage_rows_le (h : Bool) (df : DF) :
    (outlierStage h df).rows.length ≤ df.rows.length := by
  unfold outlierStage
  cases hc : colIdx df "age" with
  | none => exact le_refl _
  | some ia =>
    cases h with
    | false => exact le_refl _
    | true => simpa using List.length_filter_le _ df.rows

theorem dropColName_rows_length (n : String) (df : DF) :
    (dropColName n df).rows.length = df.rows.length := by
  unfold dropColName
  cases hc : colIdx df n with
  | none => rfl
  | some i => simp

theorem binStage_rows_length (b : Bool) (df : DF) :
    (binStage b df).rows.length = df.rows.length := by
  unfold binStage
  cases hc : colIdx df "age" with
  | none => rfl
  | some ia =>
    cases b with
    | false => rfl
    | true => simp [dropColName_rows_length]

theorem stage1_rows_le (d : Bool) (df : DF) :
    (stage1 d df).rows.length ≤ df.rows.length := by
  unfold stage1
  cases d with
  | false => exact le_refl _
  | true => simpa using (dropDuplicates_sublist df.rows).length_le

theorem pipeDF_rows_le (d h b : Bool) (iy : Nat) (df : DF) :
    (pipeDF d h b iy df).rows.length ≤ (stage1 d df).rows.length := by
  unfold pipeDF
  rw [binStage_rows_length]
  exact le_trans (outlierStage_rows_le h _) (le_of_eq (stage3_rows_length iy _))

/-- If the first match of `p` in `l` is at `j` and position `i` does not
match, then after erasing position `i` the first match is at `j` or `j−1`. -/
theorem findIdx?_eraseIdx_of_ne {α : Type} (l : List α) (p : α → Bool) (i j : Nat)
    (hj : l.findIdx? p = some j) (hi : i < l.length) (hpi : p l[i] = false) :
    (l.eraseIdx i).findIdx? p = some (if j < i then j else j - 1) := by
  rcases List.findIdx?_eq_some_iff_getElem.mp hj with ⟨hjl, hpj, hmin⟩
  have hij : i ≠ j := by
    intro h1
    cases h1
    exact Bool.noConfusion (hpj.symm.trans hpi)
  rw [List.findIdx?_eq_some_iff_getElem]
  have hel : (l.eraseIdx i).length = l.length - 1 := by
    rw [List.length_eraseIdx, if_pos hi]
  by_cases hcase : j < i
  · rw [if_pos hcase]
    have h2 : j < (l.eraseIdx i).length := by omega
    refine ⟨h2, ?_, ?_⟩
    · rw [List.getElem_eraseIdx _ _ _ h2, dif_pos hcase]
      exact hpj
    · intro k hk
      have h3 : k < (l.eraseIdx i).length := by omega
      rw [List.getElem_eraseIdx _ _ _ h3, dif_pos (by omega)]
      simpa using hmin k (by omega)
  · rw [if_neg hcase]
    have hij2 : i < j := by omega
    have h2 : j - 1 < (l.eraseIdx i).length := by omega
    refine ⟨h2, ?_, ?_⟩
    · rw [List.getElem_eraseIdx _ _ _ h2, dif_neg (by omega)]
      have h3 : j - 1 + 1 = j := by omega
      simp only [h3]
      exact hpj
    · intro k hk
      have h3 : k < (l.eraseIdx i).length := by omega
      rw [List.getElem_eraseIdx _ _ _ h3]
      by_cases h4 : k < i
      · rw [dif_pos h4]
        simpa using hmin k (by omega)
      · rw [dif_neg h4]
        simpa using hmin (k + 1) (by omega)

/-- The first column named `n` does not move when a differently-named column
is appended. -/
theorem findIdx?_append_singleton_of_some {α : Type} (l : List α) (x : α)
    (p : α → Bool) (j : Nat) (hj : l.findIdx? p = some j) :
    (l ++ [x]).findIdx? p = some j := by
  rw [List.findIdx?_append, hj]
  rfl

/-- The header entry a successful `colIdx` points at is named `n`, and its
index is in range. -/
theorem colIdx_spec (df : DF) (n : String) (i : Nat)
    (h : colIdx df n = some i) :
    ∃ hlt : i < df.header.length, df.header[i].1 = n := by
  rcases List.findIdx?_eq_some_iff_getElem.mp h with ⟨hlt, hp, _⟩
  exact ⟨hlt, by simpa using hp⟩

/-- Header of the binning stage when it fires: the `age` entry is removed
and the categorical `age_group` entry is appended. -/
theorem binStage_header_active (df : DF) (ia : Nat)
    (ha : colIdx df "age" = some ia) :
    (binStage true df).header
      = df.header.eraseIdx ia ++ [("age_group", Dtype.cat ageGroupLevels)] := by
  rcases colIdx_spec df "age" ia ha with ⟨hlt, _⟩
  unfold binStage
  rw [ha]
  simp only [if_true]
  unfold dropColName
  have h1 : colIdx
      { header := df.header ++ [("age_group", Dtype.cat ageGroupLevels)],
        rows := df.rows.map (fun r => r ++ [cutAge (r.getD ia Value.null)]) }
      "age" = some ia := by
    unfold colIdx at ha ⊢
    exact findIdx?_append_singleton_of_some _ _ _ _ ha
  rw [h1]
  simp only
  rw [List.eraseIdx_append_of_lt_length hlt]

/-- Where the `y` column sits after the binning stage. -/
def yIdxAfter (df : DF) (b : Bool) (iy : Nat) : Nat :=
  match colIdx df "age", b with
  | some ia, true => if iy < ia then iy else iy - 1
  | _, _ => iy

theorem colIdx_binStage_y (df : DF) (b : Bool) (iy : Nat)
    (hy : colIdx df "y" = some iy) :
    colIdx (binStage b df) "y" = some (yIdxAfter df b iy) := by
  cases hc : colIdx df "age" with
  | none =>
    unfold binStage yIdxAfter
    rw [hc]
    exact hy
  | some ia =>
    cases b with
    | false =>
      unfold binStage yIdxAfter
      rw [hc]
      exact hy
    | true =>
      rcases colIdx_spec df "age" ia hc with ⟨hlt, hname⟩
      have hcol : colIdx (binStage true df) "y"
          = (df.header.eraseIdx ia
              ++ [("age_group", Dtype.cat ageGroupLevels)]).findIdx?
                (fun c => c.1 == "y") := by
        unfold colIdx
        rw [binStage_header_active df ia hc]
      rw [hcol, List.findIdx?_append]
      have h2 : (df.header.eraseIdx ia).findIdx? (fun c => c.1 == "y")
          = some (if iy < ia then iy else iy - 1) := by
        apply findIdx?_eraseIdx_of_ne _ _ _ _ hy hlt
        rw [hname]
        rfl
      rw [h2]
      unfold yIdxAfter
      rw [hc]
      rfl

theorem colIdx_pipeDF_y (d h b : Bool) (df : DF) (iy : Nat)
    (hy : colIdx df "y" = some iy) :
    colIdx (pipeDF d h b iy df) "y"
      = some (yIdxAfter df b iy) := by
  unfold pipeDF
  have h1 : colIdx (outlierStage h (stage3 iy (stage1 d df))) "y"
      = some iy := by
    rw [colIdx_of_header_eq (outlierStage_header h _) "y",
        colIdx_of_header_eq (stage3_header iy _) "y", colIdx_stage1]
    exact hy
  have h2 : colIdx (outlierStage h (stage3 iy (stage1 d df))) "age"
      = colIdx df "age" := by
    rw [colIdx_of_header_eq (outlierStage_header h _) "age",
        colIdx_of_header_eq (stage3_header iy _) "age", colIdx_stage1]
  have h3 := colIdx_binStage_y (outlierStage h (stage3 iy (stage1 d df))) b iy h1
  rw [h3]
  unfold yIdxAfter
  rw [h2]

/-- Inverting a successful run: the `y` column index and the two output
components. -/
theorem core_ok_inversion (d h b : Bool) (df : DF) (e : Encoded)
    (hok : preprocessCore d h b df = .ok e) :
    ∃ iy, colIdx df "y" = some iy
      ∧ e.cols = getDummies (dropColName "y" (pipeDF d h b iy df))
      ∧ e.yOut = (colVals (pipeDF d h b iy df) (yIdxAfter df b iy)).map valToQ := by
  cases hc : colIdx (stage1 d df) "y" with
  | none => simp [preprocessCore, hc] at hok
  | some iy =>
    have hy : colIdx df "y" = some iy := (colIdx_stage1 d df "y").symm.trans hc
    refine ⟨iy, hy, ?_⟩
    by_cases ha : (stage3 iy (stage1 d df)).rows.any
        (fun r => r.getD iy Value.null == Value.null) = true
    · exfalso
      simp only [preprocessCore, hc] at hok
      rw [if_pos ha] at hok
      exact Except.noConfusion hok
    · simp only [preprocessCore, hc] at hok
      rw [if_neg ha] at hok
      rw [colIdx_pipeDF_y d h b df iy hy] at hok
      cases hok
      exact ⟨rfl, rfl⟩

theorem length_dummiesOfCol (n : String) (dt : Dtype) (vals : List Value) :
    ∀ p ∈ dummiesOfCol n dt vals, p.2.length = vals.length := by
  intro p hp
  cases dt with
  | numeric =>
    simp only [dummiesOfCol, List.mem_singleton] at hp
    rw [hp]
    simp
  | strDt =>
    simp only [dummiesOfCol] at hp
    rcases List.mem_map.mp hp with ⟨c, _, hc⟩
    rw [← hc]
    simp [indicatorCol]
  | cat levels =>
    simp only [dummiesOfCol] at hp
    rcases List.mem_map.mp hp with ⟨c, _, hc⟩
    rw [← hc]
    simp [indicatorCol]

theorem length_colVals (df : DF) (i : Nat) :
    (colVals df i).length = df.rows.length := by
  simp [colVals]

theorem mem_colTriples_vals (df : DF) (t : String × Dtype × List Value)
    (ht : t ∈ colTriples df) : t.2.2.length = df.rows.length := by
  unfold colTriples at ht
  rcases List.mem_map.mp ht with ⟨p, _, hp⟩
  rw [← hp]
  simp [length_colVals]

theorem length_getDummies (df : DF) :
    ∀ p ∈ getDummies df, p.2.length = df.rows.length := by
  intro p hp
  unfold getDummies at hp
  rcases List.mem_append.mp hp with h1 | h1 <;>
  · rcases List.mem_flatMap.mp h1 with ⟨t, ht, hpt⟩
    have h2 := List.mem_filter.mp ht
    have h3 := mem_colTriples_vals df t h2.1
    rw [length_dummiesOfCol _ _ _ p hpt, h3]

/-- C8: whenever `preprocess` succeeds, row counts only shrink along the
pipeline: the output row count (the length of the written `y` column, which
is also the length of every written feature column) is at most the
deduplicated row count, which is at most the raw row count. -/
theorem C8_row_count_monotone (d h b : Bool) (df : DF) (e : Encoded)
    (hok : preprocessCore d h b df = .ok e) :
    e.yOut.length ≤ (stage1 d df).rows.length
    ∧ (stage1 d df).rows.length ≤ df.rows.length
    ∧ (∀ p ∈ e.cols, p.2.length = e.yOut.length) := by
  rcases core_ok_inversion d h b df e hok with ⟨iy, hy, hcols, hyout⟩
  have hylen : e.yOut.length = (pipeDF d h b iy df).rows.length := by
    rw [hyout]
    simp [length_colVals]
  refine ⟨?_, stage1_rows_le d df, ?_⟩
  · rw [hylen]
    exact pipeDF_rows_le d h b iy df
  · intro p hp
    rw [hcols] at hp
    have h1 := length_getDummies _ p hp
    rw [h1, dropColName_rows_length, hylen]

/-- Concrete run of `C8_row_count_monotone` on the 4-row example table
(one duplicate): 3 output rows ≤ 3 deduplicated rows ≤ 4 raw rows. -/
def cdfDup : DF :=
  { header := [("age", Dtype.numeric), ("y", Dtype.strDt)],
    rows := [[.num 25, .str "yes"], [.num 70, .str "no"],
             [.num 40, .str "yes"], [.num 40, .str "yes"]] }

theorem C8_row_count_monotone_witness :
    ∃ e, preprocessCore true true true cdfDup = .ok e
    ∧ (e.yOut.length ≤ (stage1 true cdfDup).rows.length
      ∧ (stage1 true cdfDup).rows.length ≤ cdfDup.rows.length
      ∧ (∀ p ∈ e.cols, p.2.length = e.yOut.length)) := by
  rcases core_ok_of_validY true true true cdfDup 1 (by decide) (by decide)
    with ⟨e, he⟩
  exact ⟨e, he, C8_row_count_monotone true true true cdfDup e he⟩

/-! ### Row order and row/target pairing -/

theorem dropDupAux_seen_split (rs : List (List Value)) :
    ∀ (s1 s2 : List (List Value)),
      dropDupAux (s1 ++ s2) rs
        = dropDupAux s1 (rs.filter (fun x => !decide (x ∈ s2))) := by
  induction rs with
  | nil => intro s1 s2; simp [dropDupAux]
  | cons x rs ih =>
    intro s1 s2
    by_cases h2 : x ∈ s2
    · have hmem : x ∈ s1 ++ s2 := List.mem_append.mpr (Or.inr h2)
      have hfil : (x :: rs).filter (fun x => !decide (x ∈ s2))
          = rs.filter (fun x => !decide (x ∈ s2)) := by
        simp [List.filter_cons, h2]
      simp only [dropDupAux, if_pos hmem, hfil]
      exact ih s1 s2
    · have hfil : (x :: rs).filter (fun x => !decide (x ∈ s2))
          = x :: rs.filter (fun x => !decide (x ∈ s2)) := by
        simp [List.filter_cons, h2]
      by_cases h1 : x ∈ s1
      · have hmem : x ∈ s1 ++ s2 := List.mem_append.mpr (Or.inl h1)
        simp only [dropDupAux, if_pos hmem, hfil, if_pos h1]
        exact ih s1 s2
      · have hmem : x ∉ s1 ++ s2 := by
          simp [List.mem_append, h1, h2]
        simp only [dropDupAux, if_neg hmem, hfil, if_neg h1]
        rw [show x :: (s1 ++ s2) = (x :: s1) ++ s2 from rfl]
        rw [ih (x :: s1) s2]

/-- `drop_duplicates` keeps the first occurrence: the head row always
survives and every later copy of it is removed before deduplicating the
rest. -/
theorem dropDuplicates_cons (r : List Value) (rs : List (List Value)) :
    dropDuplicates (r :: rs)
      = r :: dropDuplicates (rs.filter (fun x => !decide (x = r))) := by
  unfold dropDuplicates
  simp only [dropDupAux, List.not_mem_nil, if_false]
  congr 1
  have h1 := dropDupAux_seen_split rs [] [r]
  simp only [List.nil_append] at h1
  rw [h1]
  congr 1
  apply List.filter_congr
  intro x _
  simp

theorem outlierStage_rows_filter (h : Bool) (df : DF) :
    ∃ p : List Value → Bool, (outlierStage h df).rows = df.rows.filter p := by
  unfold outlierStage
  cases hc : colIdx df "age" with
  | none => exact ⟨fun _ => true, (List.filter_true df.rows).symm⟩
  | some ia =>
    cases h with
    | false => exact ⟨fun _ => true, (List.filter_true df.rows).symm⟩
    | true => exact ⟨_, rfl⟩

theorem binStage_aux_colIdx (df : DF) (ia : Nat)
    (ha : colIdx df "age" = some ia) :
    colIdx { header := df.header ++ [("age_group", Dtype.cat ageGroupLevels)],
             rows := df.rows.map (fun r => r ++ [cutAge (r.getD ia Value.null)]) }
      "age" = some ia := by
  unfold colIdx at ha ⊢
  exact findIdx?_append_singleton_of_some _ _ _ _ ha

theorem binStage_rows_active (df : DF) (ia : Nat)
    (ha : colIdx df "age" = some ia) :
    (binStage true df).rows
      = df.rows.map
          (fun r => (r ++ [cutAge (r.getD ia Value.null)]).eraseIdx ia) := by
  unfold binStage
  rw [ha]
  simp only [if_true]
  unfold dropColName
  rw [binStage_aux_colIdx df ia ha]
  simp [List.map_map, Function.comp]

theorem binStage_inactive (b : Bool) (df : DF)
    (h : b = false ∨ colIdx df "age" = none) : binStage b df = df := by
  unfold binStage
  cases hc : colIdx df "age" with
  | none => rfl
  | some ia =>
    rcases h with h1 | h1
    · simp [h1]
    · rw [h1] at hc
      exact Option.noConfusion hc

theorem yIdxAfter_of_age_none (df : DF) (b : Bool) (iy : Nat)
    (hc : colIdx df "age" = none) : yIdxAfter df b iy = iy := by
  unfold yIdxAfter
  rw [hc]

theorem yIdxAfter_false (df : DF) (iy : Nat) : yIdxAfter df false iy = iy := by
  unfold yIdxAfter
  cases hc : colIdx df "age" <;> rfl

theorem yIdxAfter_active (df : DF) (ia iy : Nat)
    (hc : colIdx df "age" = some ia) :
    yIdxAfter df true iy = if iy < ia then iy else iy - 1 := by
  unfold yIdxAfter
  rw [hc]

theorem colIdx_outlier3_eq (d h : Bool) (iy : Nat) (df : DF) (n : String) :
    colIdx (outlierStage h (stage3 iy (stage1 d df))) n = colIdx df n := by
  rw [colIdx_of_header_eq (outlierStage_header h _) n,
      colIdx_of_header_eq (stage3_header iy _) n, colIdx_stage1]

/-- Appending a cell and erasing the `age` cell leaves every other cell of
the row readable at its shifted index. -/
theorem getD_binRow (r : List Value) (x : Value) (ia iy : Nat)
    (hia : ia < r.length) (hiy : iy < r.length) (hne : ia ≠ iy) :
    ((r ++ [x]).eraseIdx ia).getD (if iy < ia then iy else iy - 1) Value.null
      = r.getD iy Value.null := by
  have hlen : (r ++ [x]).length = r.length + 1 := by simp
  have helen : ((r ++ [x]).eraseIdx ia).length = r.length := by
    rw [List.length_eraseIdx, hlen, if_pos (by omega)]
    omega
  by_cases hcase : iy < ia
  · rw [if_pos hcase, List.getD_eq_getElem _ _ (by omega),
        List.getD_eq_getElem _ _ hiy,
        List.getElem_eraseIdx _ _ _ (by omega), dif_pos hcase,
        List.getElem_append, dif_pos (by omega)]
  · have hlt : ia < iy := by omega
    rw [if_neg hcase, List.getD_eq_getElem _ _ (by omega),
        List.getD_eq_getElem _ _ hiy,
        List.getElem_eraseIdx _ _ _ (by omega), dif_neg (by omega)]
    have h3 : iy - 1 + 1 = iy := by omega
    simp only [h3]
    rw [List.getElem_append, dif_pos (by omega)]

theorem dummiesOfCol_vals_map (n : String) (dt : Dtype) (vals : List Value) :
    ∀ p ∈ dummiesOfCol n dt vals, ∃ g : Value → ℚ, p.2 = vals.map g := by
  intro p hp
  cases dt with
  | numeric =>
    simp only [dummiesOfCol, List.mem_singleton] at hp
    exact ⟨valToQ, by rw [hp]⟩
  | strDt =>
    simp only [dummiesOfCol] at hp
    rcases List.mem_map.mp hp with ⟨c, _, hc⟩
    exact ⟨fun v => if v = Value.str c then 1 else 0, by rw [← hc]; rfl⟩
  | cat levels =>
    simp only [dummiesOfCol] at hp
    rcases List.mem_map.mp hp with ⟨c, _, hc⟩
    exact ⟨fun v => if v = Value.str c then 1 else 0, by rw [← hc]; rfl⟩

theorem getDummies_vals (X : DF) :
    ∀ p ∈ getDummies X, ∃ g : List Value → ℚ, p.2 = X.rows.map g := by
  intro p hp
  unfold getDummies at hp
  rcases List.mem_append.mp hp with h1 | h1 <;>
  · rcases List.mem_flatMap.mp h1 with ⟨t, ht, hpt⟩
    have ht2 : t ∈ colTriples X := (List.mem_filter.mp ht).1
    unfold colTriples at ht2
    rcases List.mem_map.mp ht2 with ⟨q, _, hq⟩
    rcases dummiesOfCol_vals_map t.1 t.2.1 t.2.2 p hpt with ⟨g0, hg0⟩
    refine ⟨fun r => g0 (r.getD q.1 Value.null), ?_⟩
    have h2 : t.2.2 = colVals X q.1 := by rw [← hq]
    rw [hg0, h2]
    unfold colVals
    rw [List.map_map]
    rfl

theorem dropColName_rows_active (n : String) (df : DF) (i : Nat)
    (h : colIdx df n = some i) :
    (dropColName n df).rows = df.rows.map (fun r => r.eraseIdx i) := by
  unfold dropColName
  rw [h]

/-- C7: on every successful run, the surviving rows keep their original
relative order (they form a sublist `keep` of the input rows, every output
column being a row-wise image of `keep`), the written `y` value of output
row `i` is the encoded target of the same surviving input row `keep i` that
the feature values of row `i` come from, and deduplication keeps the first
occurrence of each duplicated row. -/
theorem C7_order_and_pairing (d h b : Bool) (df : DF) (e : Encoded)
    (hwf : WellFormed df) (hok : preprocessCore d h b df = .ok e) :
    (∃ iy keep, colIdx df "y" = some iy
      ∧ List.Sublist keep df.rows
      ∧ e.yOut = keep.map (fun r => valToQ (encodeY (r.getD iy Value.null)))
      ∧ (∀ p ∈ e.cols, ∃ g : List Value → ℚ, p.2 = keep.map g))
    ∧ (∀ (r : List Value) (rs : List (List Value)),
        dropDuplicates (r :: rs)
          = r :: dropDuplicates (rs.filter (fun x => !decide (x = r)))) := by
  refine ⟨?_, dropDuplicates_cons⟩
  rcases core_ok_inversion d h b df e hok with ⟨iy, hy, hcols, hyout⟩
  rcases colIdx_spec df "y" iy hy with ⟨hiy_lt, hiy_name⟩
  rcases outlierStage_rows_filter h (stage3 iy (stage1 d df)) with ⟨pr, hpr⟩
  set setY := fun r : List Value => r.set iy (encodeY (r.getD iy Value.null))
    with hsetY
  have hrows2 : (stage3 iy (stage1 d df)).rows = (stage1 d df).rows.map setY := rfl
  set keep := (stage1 d df).rows.filter (fun r => pr (setY r)) with hkeepdef
  have hkeep_mem : ∀ r ∈ keep, r ∈ df.rows := by
    intro r hr
    exact (mem_stage1_rows d df r).mp (List.mem_filter.mp hr).1
  have hkeep_sub : List.Sublist keep df.rows := by
    refine List.Sublist.trans (List.filter_sublist _) ?_
    unfold stage1
    cases d
    · simp
    · simpa using dropDuplicates_sublist df.rows
  have hrows3 : (outlierStage h (stage3 iy (stage1 d df))).rows
      = keep.map setY := by
    rw [hpr, hrows2, List.filter_map]
    rfl
  obtain ⟨F, hpipe, hval⟩ :
      ∃ F : List Value → List Value,
        (pipeDF d h b iy df).rows = keep.map F
        ∧ ∀ r ∈ keep, (F r).getD (yIdxAfter df b iy) Value.null
            = encodeY (r.getD iy Value.null) := by
    cases hca : colIdx df "age" with
    | none =>
      refine ⟨setY, ?_, ?_⟩
      · unfold pipeDF
        rw [binStage_inactive b _ (Or.inr ((colIdx_outlier3_eq d h iy df "age").trans hca))]
        exact hrows3
      · intro r _
        rw [yIdxAfter_of_age_none df b iy hca]
        exact getD_stage3_row r iy
    | some ia =>
      cases b with
      | false =>
        refine ⟨setY, ?_, ?_⟩
        · unfold pipeDF
          rw [binStage_inactive false _ (Or.inl rfl)]
          exact hrows3
        · intro r _
          rw [yIdxAfter_false df iy]
          exact getD_stage3_row r iy
      | true =>
        have hca3 : colIdx (outlierStage h (stage3 iy (stage1 d df))) "age"
            = some ia := (colIdx_outlier3_eq d h iy df "age").trans hca
        rcases colIdx_spec df "age" ia hca with ⟨hia_lt, hia_name⟩
        have hne : ia ≠ iy := by
          intro h1
          subst h1
          exact absurd (hia_name.symm.trans hiy_name) (by decide)
        refine ⟨fun r => ((setY r ++ [cutAge ((setY r).getD ia Value.null)]).eraseIdx ia),
          ?_, ?_⟩
        · unfold pipeDF
          rw [binStage_rows_active _ ia hca3, hrows3, List.map_map]
          rfl
        · intro r hr
          have hrlen : r.length = df.header.length := hwf r (hkeep_mem r hr)
          have hslen : (setY r).length = r.length := List.length_set r iy _
          rw [yIdxAfter_active df ia iy hca]
          rw [getD_binRow (setY r) _ ia iy (by omega) (by omega) hne]
          exact getD_stage3_row r iy
  refine ⟨iy, keep, hy, hkeep_sub, ?_, ?_⟩
  · rw [hyout]
    unfold colVals
    rw [hpipe, List.map_map, List.map_map]
    apply List.map_congr_left
    intro r hr
    simp only [Function.comp]
    rw [hval r hr]
  · intro p hp
    rw [hcols] at hp
    rcases getDummies_vals _ p hp with ⟨g, hg⟩
    have hX : (dropColName "y" (pipeDF d h b iy df)).rows
        = (pipeDF d h b iy df).rows.map
            (fun r => r.eraseIdx (yIdxAfter df b iy)) :=
      dropColName_rows_active _ _ _ (colIdx_pipeDF_y d h b df iy hy)
    refine ⟨fun r => g ((F r).eraseIdx (yIdxAfter df b iy)), ?_⟩
    rw [hg, hX, hpipe, List.map_map, List.map_map]
    rfl

theorem C7_order_and_pairing_witness :
    ∃ e, preprocessCore true true true cdfDup = .ok e
    ∧ ((∃ iy keep, colIdx cdfDup "y" = some iy
        ∧ List.Sublist keep cdfDup.rows
        ∧ e.yOut = keep.map (fun r => valToQ (encodeY (r.getD iy Value.null)))
        ∧ (∀ p ∈ e.cols, ∃ g : List Value → ℚ, p.2 = keep.map g))
      ∧ (∀ (r : List Value) (rs : List (List Value)),
          dropDuplicates (r :: rs)
            = r :: dropDuplicates (rs.filter (fun x => !decide (x = r))))) := by
  rcases core_ok_of_validY true true true cdfDup 1 (by decide) (by decide)
    with ⟨e, he⟩
  exact ⟨e, he, C7_order_and_pairing true true true cdfDup e (by decide) he⟩

/-! ### Out-of-range ages under binning -/

theorem getD_map_lt {α β : Type} (f : α → β) (l : List α) (i : Nat) (d : β)
    (da : α) (h : i < l.length) : (l.map f).getD i d = f (l.getD i da) := by
  rw [List.getD_eq_getElem _ _ (by simpa using h), List.getD_eq_getElem _ _ h,
      List.getElem_map]

/-- C10: with binning enabled and an `age` column present, a row whose age
lies outside `[0,100]` is neither removed nor rejected (the bin stage keeps
every row and cannot fail); `pd.cut` gives such an age a null bucket, and in
the `age_group` indicator columns a null bucket yields 0 everywhere —
exactly the encoding of a row whose bucket is the dropped reference level
`Young` (ages in `[0,30]`), so the two are indistinguishable in the
output. -/
theorem C10_out_of_range_age (df : DF) (ia : Nat) (q : ℚ)
    (ha : colIdx df "age" = some ia) (hq : q < 0 ∨ 100 < q) :
    (binStage true df).rows.length = df.rows.length
    ∧ cutAge (.num q) = .null
    ∧ (∀ (vals : List Value) (i : Nat), i < vals.length →
        (vals.getD i Value.null = Value.null
          ∨ vals.getD i Value.null = Value.str "Young") →
        ∀ p ∈ dummiesOfCol "age_group" (Dtype.cat ageGroupLevels) vals,
          p.2.getD i 0 = 0)
    ∧ (∀ q2 : ℚ, 0 ≤ q2 → q2 ≤ 30 → cutAge (.num q2) = .str "Young") := by
  refine ⟨binStage_rows_length true df, ?_, ?_, ?_⟩
  · have h1 : ¬(0 ≤ q ∧ q ≤ 30) := by
      rcases hq with h0 | h0 <;> (rintro ⟨a, b⟩; linarith)
    have h2 : ¬(30 < q ∧ q ≤ 45) := by
      rcases hq with h0 | h0 <;> (rintro ⟨a, b⟩; linarith)
    have h3 : ¬(45 < q ∧ q ≤ 60) := by
      rcases hq with h0 | h0 <;> (rintro ⟨a, b⟩; linarith)
    have h4 : ¬(60 < q ∧ q ≤ 100) := by
      rcases hq with h0 | h0 <;> (rintro ⟨a, b⟩; linarith)
    simp [cutAge, h1, h2, h3, h4]
  · intro vals i hi hv p hp
    simp only [dummiesOfCol] at hp
    rcases List.mem_map.mp hp with ⟨c, hc, hcp⟩
    have hcy : c ≠ "Young" := by
      intro hEq
      rw [hEq] at hc
      simp [ageGroupLevels] at hc
    rw [← hcp]
    show (indicatorCol c vals).getD i 0 = 0
    unfold indicatorCol
    rw [getD_map_lt _ _ _ _ Value.null hi]
    rcases hv with h | h
    · rw [h, if_neg (fun hE => Value.noConfusion hE)]
    · rw [h, if_neg (fun hE => hcy ((Value.str.inj hE).symm))]
  · intro q2 hq1 hq2
    simp only [cutAge]
    rw [if_pos ⟨hq1, hq2⟩]

/-- Concrete run of `C10_out_of_range_age` at age 150. -/
def cdfBadAge : DF :=
  { header := [("age", Dtype.numeric), ("y", Dtype.strDt)],
    rows := [[.num 150, .str "yes"], [.num 40, .str "no"]] }

theorem C10_out_of_range_age_witness :
    (colIdx cdfBadAge "age" = some 0 ∧ ((150:ℚ) < 0 ∨ 100 < (150:ℚ)))
    ∧ ((binStage true cdfBadAge).rows.length = cdfBadAge.rows.length
      ∧ cutAge (.num 150) = .null
      ∧ (∀ (vals : List Value) (i : Nat), i < vals.length →
          (vals.getD i Value.null = Value.null
            ∨ vals.getD i Value.null = Value.str "Young") →
          ∀ p ∈ dummiesOfCol "age_group" (Dtype.cat ageGroupLevels) vals,
            p.2.getD i 0 = 0)
      ∧ (∀ q2 : ℚ, 0 ≤ q2 → q2 ≤ 30 → cutAge (.num q2) = .str "Young")) :=
  ⟨⟨by decide, by norm_num⟩,
   C10_out_of_range_age cdfBadAge 0 150 (by decide) (by norm_num)⟩

/-! ### Standardization: zero mean, unit standard deviation -/

theorem sum_map_div (l : List ℝ) (f : ℝ → ℝ) (c : ℝ) :
    (l.map (fun x => f x / c)).sum = (l.map f).sum / c := by
  induction l with
  | nil => simp
  | cons x xs ih => simp [ih, add_div]

theorem sum_map_sub_const (l : List ℝ) (c : ℝ) :
    (l.map (fun x => x - c)).sum = l.sum - l.length * c := by
  induction l with
  | nil => simp
  | cons x xs ih =>
    simp only [List.map_cons, List.sum_cons, ih, List.length_cons]
    push_cast
    ring

theorem varQ_nonneg (xs : List ℚ) : 0 ≤ varQ xs := by
  unfold varQ
  apply div_nonneg
  · apply List.sum_nonneg
    intro x hx
    rcases List.mem_map.mp hx with ⟨y, _, hy⟩
    rw [← hy]
    positivity
  · exact Nat.cast_nonneg _

theorem varQ_ne_zero_nonempty (xs : List ℚ) (h : varQ xs ≠ 0) : xs ≠ [] := by
  intro hx
  apply h
  rw [hx]
  simp [varQ]

theorem cast_meanQ (xs : List ℚ) :
    ((meanQ xs : ℚ) : ℝ)
      = (xs.map (fun x : ℚ => (x : ℝ))).sum / (xs.length : ℝ) := by
  unfold meanQ
  push_cast
  rfl

theorem cast_varQ (xs : List ℚ) :
    ((varQ xs : ℚ) : ℝ)
      = ((xs.map (fun x : ℚ => (x : ℝ))).map
          (fun y => (y - ((meanQ xs : ℚ) : ℝ)) ^ 2)).sum / (xs.length : ℝ) := by
  unfold varQ
  push_cast
  rw [List.map_map, List.map_map]
  congr 1
  refine congrArg List.sum ?_
  apply List.map_congr_left
  intro x _
  simp only [Function.comp_apply]
  push_cast
  ring

/-- Standardizing any real column by its own mean and standard deviation
gives exactly mean 0 and standard deviation 1. -/
theorem scale_mean_std_real (l : List ℝ) (μ σ v : ℝ)
    (hlen0 : (l.length : ℝ) ≠ 0)
    (hμ : μ = l.sum / l.length)
    (hv : v = (l.map (fun y => (y - μ) ^ 2)).sum / l.length)
    (hv0 : 0 ≤ v) (hvne : v ≠ 0) (hσ : σ = Real.sqrt v) :
    meanR (l.map (fun y => (y - μ) / σ)) = 0
    ∧ stddevR (l.map (fun y => (y - μ) / σ)) = 1 := by
  have hσ2 : σ ^ 2 = v := by rw [hσ]; exact Real.sq_sqrt hv0
  have hcancel : (l.length : ℝ) * (l.sum / l.length) = l.sum := by
    field_simp
  have hsum0 : (l.map (fun y => (y - μ) / σ)).sum = 0 := by
    rw [sum_map_div l (fun y => y - μ) σ, sum_map_sub_const, hμ, hcancel]
    simp
  have hmean : meanR (l.map (fun y => (y - μ) / σ)) = 0 := by
    unfold meanR
    rw [hsum0, zero_div]
  refine ⟨hmean, ?_⟩
  have hsumsq : (l.map (fun y => (y - μ) ^ 2)).sum = v * l.length := by
    rw [hv, div_mul_cancel₀ _ hlen0]
  have h1 : (l.map (fun y => ((y - μ) / σ) ^ 2)).sum
      = (l.map (fun y => (y - μ) ^ 2)).sum / σ ^ 2 := by
    rw [← sum_map_div l (fun y => (y - μ) ^ 2) (σ ^ 2)]
    refine congrArg List.sum ?_
    apply List.map_congr_left
    intro y _
    rw [div_pow]
  have hvarR : varR (l.map (fun y => (y - μ) / σ)) = 1 := by
    unfold varR
    rw [hmean]
    simp only [sub_zero, List.map_map, List.length_map]
    show (l.map (fun y => ((y - μ) / σ) ^ 2)).sum / (l.length : ℝ) = 1
    rw [h1, hsumsq, hσ2]
    field_simp
  unfold stddevR
  rw [hvarR]
  exact Real.sqrt_one

/-- Standardizing a rational column of nonzero variance gives exactly mean 0
and standard deviation 1 (in exact real arithmetic). -/
theorem scaleCol_mean_std (xs : List ℚ) (hvar : varQ xs ≠ 0) :
    meanR (scaleCol xs) = 0 ∧ stddevR (scaleCol xs) = 1 := by
  have hne : xs ≠ [] := varQ_ne_zero_nonempty xs hvar
  have hn0 : xs.length ≠ 0 := fun hzero => hne (List.length_eq_zero.mp hzero)
  have hlen0 : (((xs.map (fun x : ℚ => (x : ℝ))).length : ℕ) : ℝ) ≠ 0 := by
    rw [List.length_map]
    exact_mod_cast hn0
  have hcomp : scaleCol xs
      = (xs.map (fun x : ℚ => (x : ℝ))).map
          (fun y => (y - ((meanQ xs : ℚ) : ℝ)) / Real.sqrt ((varQ xs : ℚ) : ℝ)) := by
    unfold scaleCol
    rw [List.map_map]
    rfl
  have hμ2 : ((meanQ xs : ℚ) : ℝ)
      = (xs.map (fun x : ℚ => (x : ℝ))).sum
          / ((xs.map (fun x : ℚ => (x : ℝ))).length : ℝ) := by
    rw [cast_meanQ, List.length_map]
  have hv2 : ((varQ xs : ℚ) : ℝ)
      = ((xs.map (fun x : ℚ => (x : ℝ))).map
          (fun y => (y - ((meanQ xs : ℚ) : ℝ)) ^ 2)).sum
          / ((xs.map (fun x : ℚ => (x : ℝ))).length : ℝ) := by
    rw [cast_varQ, List.length_map]
  have hv0 : (0:ℝ) ≤ ((varQ xs : ℚ) : ℝ) := by exact_mod_cast varQ_nonneg xs
  have hvne : ((varQ xs : ℚ) : ℝ) ≠ 0 := by exact_mod_cast hvar
  rw [hcomp]
  exact scale_mean_std_real _ _ _ _ hlen0 hμ2 hv2 hv0 hvne rfl

/-- C9: for every feature column of a successful run whose pre-scaling
values have nonzero (population) variance, the standardized column
`(x − mean)/stddev` has mean exactly 0 and standard deviation exactly 1
(so in particular within any floating-point tolerance), with mean and
stddev computed per column over all surviving rows; the `y` column is
reattached unscaled. -/
theorem C9_scaling_invariant (d h b : Bool) (df : DF) (e : Encoded)
    (hok : preprocessCore d h b df = .ok e) :
    (∀ p ∈ e.cols, varQ p.2 ≠ 0 →
      meanR (scaleCol p.2) = 0 ∧ stddevR (scaleCol p.2) = 1)
    ∧ finalCols e = e.cols.map (fun c => (c.1, scaleCol c.2))
        ++ [("y", e.yOut.map (fun q : ℚ => (q : ℝ)))] :=
  ⟨fun p _ hv => scaleCol_mean_std p.2 hv, rfl⟩

theorem C9_scaling_invariant_witness :
    ∃ e, preprocessCore true true true cdfDup = .ok e
    ∧ ((∀ p ∈ e.cols, varQ p.2 ≠ 0 →
        meanR (scaleCol p.2) = 0 ∧ stddevR (scaleCol p.2) = 1)
      ∧ finalCols e = e.cols.map (fun c => (c.1, scaleCol c.2))
          ++ [("y", e.yOut.map (fun q : ℚ => (q : ℝ)))]) := by
  rcases core_ok_of_validY true true true cdfDup 1 (by decide) (by decide)
    with ⟨e, he⟩
  exact ⟨e, he, C9_scaling_invariant true true true cdfDup e he⟩

/-! ### One-hot encoding: observed categories vs declared levels -/

theorem mem_insertStr (x y : String) (l : List String) :
    y ∈ insertStr x l ↔ y = x ∨ y ∈ l := by
  induction l with
  | nil => simp [insertStr]
  | cons z zs ih =>
    unfold insertStr
    by_cases h1 : strLeB x z
    · rw [if_pos h1]
      simp [List.mem_cons]
    · rw [if_neg h1]
      simp only [List.mem_cons, ih]
      tauto

theorem mem_sortStr (y : String) (l : List String) : y ∈ sortStr l ↔ y ∈ l := by
  induction l with
  | nil => simp [sortStr]
  | cons x xs ih =>
    unfold sortStr
    rw [mem_insertStr]
    simp [ih]

theorem nodup_insertStr (x : String) (l : List String)
    (hx : x ∉ l) (hl : l.Nodup) : (insertStr x l).Nodup := by
  induction l with
  | nil => simp [insertStr]
  | cons z zs ih =>
    unfold insertStr
    rcases List.nodup_cons.mp hl with ⟨hz, hzs⟩
    by_cases h1 : strLeB x z
    · rw [if_pos h1]
      exact List.nodup_cons.mpr ⟨hx, hl⟩
    · rw [if_neg h1]
      refine List.nodup_cons.mpr
        ⟨?_, ih (fun h => hx (List.mem_cons_of_mem z h)) hzs⟩
      rw [mem_insertStr]
      rintro (h | h)
      · cases h
        exact hx (List.mem_cons_self _ _)
      · exact hz h

theorem nodup_sortStr (l : List String) (hl : l.Nodup) : (sortStr l).Nodup := by
  induction l with
  | nil => simp [sortStr]
  | cons x xs ih =>
    unfold sortStr
    rcases List.nodup_cons.mp hl with ⟨hx, hxs⟩
    exact nodup_insertStr x (sortStr xs)
      (fun h => hx ((mem_sortStr x xs).mp h)) (ih hxs)

theorem mem_strCats (s : String) (vals : List Value) :
    s ∈ strCats vals ↔ Value.str s ∈ vals := by
  unfold strCats
  rw [mem_sortStr, List.mem_dedup, List.mem_filterMap]
  constructor
  · rintro ⟨v, hv, he⟩
    cases v with
    | str t =>
      simp only [Option.some.injEq] at he
      exact he ▸ hv
    | num q => simp at he
    | null => simp at he
  · intro hv
    exact ⟨Value.str s, hv, rfl⟩

theorem nodup_strCats (vals : List Value) : (strCats vals).Nodup :=
  nodup_sortStr _ (List.nodup_dedup _)

/-- Input for the C5 counterexample: after binning, the only non-numeric
feature column is `age_group` with observed values `{Adult}` (one distinct
category), yet three indicator columns are produced. -/
def cdf5 : DF :=
  { header := [("age", Dtype.numeric), ("y", Dtype.strDt)],
    rows := [[.num 40, .str "yes"], [.num 35, .str "yes"]] }

/-- C5 counterexample: running the pipeline on `cdf5` (binning on), the
non-numeric `age_group` feature column has exactly one distinct observed
category, but the encoding stage produces three indicator columns — not
"one per distinct observed category minus one", which would be zero. -/
theorem C5_counterexample :
    preprocessCore false false true cdf5
      = .ok { cols := [("age_group_Adult", [1, 1]), ("age_group_Senior", [0, 0]),
                       ("age_group_Elder", [0, 0])],
              yOut := [1, 1] }
    ∧ strCats [Value.str "Adult", Value.str "Adult"] = ["Adult"]
    ∧ (dummiesOfCol "age_group" (Dtype.cat ageGroupLevels)
        [Value.str "Adult", Value.str "Adult"]).length = 3
    ∧ (strCats [Value.str "Adult", Value.str "Adult"]).length - 1 = 0
    ∧ (3 : Nat) ≠ 0 := by
  refine ⟨by decide, by decide, by decide, by decide, by decide⟩

/-- C5 amended: string-typed (`object`) feature columns are expanded into
one indicator per distinct observed category minus one (the first category
of the encoder's ordering dropped), named `<original>_<category>`; the
categorical `age_group` column produced by binning is expanded into one
indicator per declared level minus the first level, regardless of which
levels are observed; numeric feature columns pass through unexpanded; each
indicator holds 1 exactly where the cell equals its category. -/
theorem C5_amended_encoding (name : String) (vals : List Value)
    (levels : List String) :
    dummiesOfCol name Dtype.numeric vals = [(name, vals.map valToQ)]
    ∧ (dummiesOfCol name Dtype.strDt vals).map Prod.fst
        = ((strCats vals).drop 1).map (fun c => name ++ "_" ++ c)
    ∧ (dummiesOfCol name Dtype.strDt vals).length = (strCats vals).length - 1
    ∧ (dummiesOfCol name (Dtype.cat levels) vals).map Prod.fst
        = (levels.drop 1).map (fun c => name ++ "_" ++ c)
    ∧ (dummiesOfCol name (Dtype.cat levels) vals).length = levels.length - 1
    ∧ (∀ s, s ∈ strCats vals ↔ Value.str s ∈ vals)
    ∧ (strCats vals).Nodup
    ∧ (∀ c, indicatorCol c vals
        = vals.map (fun v => if v = Value.str c then (1 : ℚ) else 0)) := by
  refine ⟨rfl, ?_, ?_, ?_, ?_, fun s => mem_strCats s vals, nodup_strCats vals,
    fun c => rfl⟩
  · simp only [dummiesOfCol]
    rw [List.map_map]
    rfl
  · simp [dummiesOfCol]
  · simp only [dummiesOfCol]
    rw [List.map_map]
    rfl
  · simp [dummiesOfCol]

/-! ### The end-to-end example run -/

/-- The table after dedup and target encoding on the 4-row example. -/
def df2c : DF :=
  { header := [("age", Dtype.numeric), ("y", Dtype.strDt)],
    rows := [[.num 25, .num 1], [.num 70, .num 0], [.num 40, .num 1]] }

/-- The encoded output of the example run: `age_group` indicators (Young
dropped as reference) and the target column. -/
def e6c : Encoded :=
  { cols := [("age_group_Adult", [0, 0, 1]), ("age_group_Senior", [0, 0, 0]),
             ("age_group_Elder", [0, 1, 0])],
    yOut := [1, 0, 1] }

theorem cdfDup_outlier : outlierStage true df2c = df2c := by
  have hlb : ageLb df2c 0 = -5/4 := by
    norm_num [ageLb, quantile, sortQ, List.insertionSort, List.orderedInsert,
      numEntries, colVals, df2c]
  have hub : ageUb df2c 0 = 355/4 := by
    norm_num [ageUb, quantile, sortQ, List.insertionSort, List.orderedInsert,
      numEntries, colVals, df2c]
  unfold outlierStage
  rw [show colIdx df2c "age" = some 0 from by decide]
  simp only [if_true]
  have hfil : df2c.rows.filter (fun r =>
      match r.getD 0 Value.null with
      | .num q => decide (ageLb df2c 0 ≤ q ∧ q ≤ ageUb df2c 0)
      | _ => false) = df2c.rows := by
    simp only [hlb, hub]
    norm_num [df2c, List.filter]
  rw [hfil]

theorem cdfDup_run : preprocessCore true true true cdfDup = .ok e6c := by
  have h1 : colIdx (stage1 true cdfDup) "y" = some 1 := by decide
  have h2 : (stage3 1 (stage1 true cdfDup)).rows.any
      (fun r => r.getD 1 Value.null == Value.null) = false := by decide
  have hstage : stage3 1 (stage1 true cdfDup) = df2c := by decide
  have hpipe : pipeDF true true true 1 cdfDup = binStage true df2c := by
    unfold pipeDF
    rw [hstage, cdfDup_outlier]
  simp only [preprocessCore, h1, h2, Bool.false_eq_true, if_false]
  rw [hpipe]
  decide

/-- C6 counterexample: on the spec's 4-row example, the three surviving ages
25, 70, 40 bucket to Young, Elder, Adult — not to `{Young, Adult, Adult}`
as the claim states (age 70 lies in `(60,100]`, i.e. Elder), and the
written output indeed has a hot `age_group_Elder` indicator in the second
row. -/
theorem C6_counterexample :
    preprocessCore true true true cdfDup = .ok e6c
    ∧ (stage1 true cdfDup).rows.map (fun r => cutAge (r.getD 0 Value.null))
      = [.str "Young", .str "Elder", .str "Adult"]
    ∧ (([Value.str "Young", Value.str "Elder", Value.str "Adult"] : List Value)
        : Multiset Value)
      ≠ (([Value.str "Young", Value.str "Adult", Value.str "Adult"] : List Value)
        : Multiset Value) :=
  ⟨cdfDup_run, by decide, by decide⟩

/-- C6 amended: for the 4-row example with default flags, the duplicate row
is removed (3 rows survive), the outlier filter removes nothing, the
surviving ages bucket to `{Young, Elder, Adult}`, the written output has 3
rows whose `y` column is `{1,0,1}`, and the one-hot age-group indicators
sum to exactly one per row — zero for the first row, whose bucket is the
dropped reference level Young. -/
theorem C6_amended_scenario :
    (stage1 true cdfDup).rows.length = 3
    ∧ outlierStage true df2c = df2c
    ∧ (stage1 true cdfDup).rows.map (fun r => cutAge (r.getD 0 Value.null))
      = [.str "Young", .str "Elder", .str "Adult"]
    ∧ preprocessCore true true true cdfDup = .ok e6c
    ∧ e6c.yOut = [1, 0, 1]
    ∧ (∀ p ∈ finalCols e6c, p.2.length = 3)
    ∧ (e6c.cols.map (fun p => p.2.getD 0 0)).sum = 0
    ∧ (e6c.cols.map (fun p => p.2.getD 1 0)).sum = 1
    ∧ (e6c.cols.map (fun p => p.2.getD 2 0)).sum = 1
    ∧ cutAge ((stage1 true cdfDup).rows.getD 0 [] |>.getD 0 Value.null)
      = .str "Young" := by
  refine ⟨by decide, cdfDup_outlier, by decide, cdfDup_run, rfl, ?_,
    by norm_num [e6c], by norm_num [e6c], by norm_num [e6c], by decide⟩
  intro p hp
  simp only [finalCols, e6c] at hp
  rcases List.mem_append.mp hp with h1 | h1
  · rcases List.mem_map.mp h1 with ⟨c, hc, hcp⟩
    rw [← hcp]
    simp only [scaleCol, List.length_map]
    fin_cases hc <;> rfl
  · rcases List.mem_singleton.mp h1 with h
    simp [h]

/-! ### The binning column invariant -/

/-- The indicator names the four `age_group` levels could produce. -/
def ageGroupDummyNames : List String :=
  ["age_group_Young", "age_group_Adult", "age_group_Senior", "age_group_Elder"]

theorem dummiesOfCol_name (n : String) (dt : Dtype) (vals : List Value) :
    ∀ p ∈ dummiesOfCol n dt vals, p.1 = n ∨ ∃ c : String, p.1 = n ++ "_" ++ c := by
  intro p hp
  cases dt with
  | numeric =>
    left
    simp only [dummiesOfCol, List.mem_singleton] at hp
    rw [hp]
  | strDt =>
    right
    simp only [dummiesOfCol] at hp
    rcases List.mem_map.mp hp with ⟨c, _, hc⟩
    exact ⟨c, by rw [← hc]⟩
  | cat levels =>
    right
    simp only [dummiesOfCol] at hp
    rcases List.mem_map.mp hp with ⟨c, _, hc⟩
    exact ⟨c, by rw [← hc]⟩

theorem dummy_name_ne_age (n c : String) : n ++ "_" ++ c ≠ "age" := by
  intro hEq
  have h1 : '_' ∈ (n ++ "_" ++ c).data := by
    rw [String.data_append, String.data_append]
    exact List.mem_append.mpr (Or.inl (List.mem_append.mpr (Or.inr (by decide))))
  rw [hEq] at h1
  exact absurd h1 (by decide)

theorem dummy_name_take3 (n c t : String)
    (ht : t.data.take 4 = ['a', 'g', 'e', '_'])
    (hEq : n ++ "_" ++ c = t) : n.data.take 3 = ['a', 'g', 'e'] := by
  have hdata : n.data ++ '_' :: c.data = t.data := by
    rw [← hEq, String.data_append, String.data_append]
    simp
  have ht2 : t.data = 'a' :: 'g' :: 'e' :: '_' :: t.data.drop 4 := by
    conv_lhs => rw [← List.take_append_drop 4 t.data]
    rw [ht]
    rfl
  rw [ht2] at hdata
  clear ht ht2 hEq
  rcases hn : n.data with _ | ⟨x1, _ | ⟨x2, _ | ⟨x3, r⟩⟩⟩ <;>
    rw [hn] at hdata <;>
    simp only [List.cons_append, List.nil_append] at hdata
  · injection hdata with h1 _
    exact absurd h1 (by decide)
  · injection hdata with h1 hdata2
    injection hdata2 with h2 _
    exact absurd h2 (by decide)
  · injection hdata with h1 hdata2
    injection hdata2 with h2 hdata3
    injection hdata3 with h3 _
    exact absurd h3 (by decide)
  · injection hdata with h1 hdata2
    injection hdata2 with h2 hdata3
    injection hdata3 with h3 _
    rw [h1, h2, h3]
    rfl

theorem enumFrom_snd_mem {α : Type} (l : List α) :
    ∀ (k : Nat) (q : Nat × α), q ∈ l.enumFrom k → q.2 ∈ l := by
  induction l with
  | nil => intro k q h; simp [List.enumFrom] at h
  | cons x xs ih =>
    intro k q h
    simp only [List.enumFrom] at h
    rcases List.mem_cons.mp h with h1 | h1
    · rw [h1]
      exact List.mem_cons_self _ _
    · exact List.mem_cons_of_mem x (ih (k + 1) q h1)

theorem eraseIdx_name_ne (l : List (String × Dtype)) (ia : Nat) (s : String)
    (hia : ia < l.length)
    (huniq : ∀ j, (hj : j < l.length) → l[j].1 = s → j = ia) :
    ∀ p ∈ l.eraseIdx ia, p.1 ≠ s := by
  intro p hp hps
  rcases List.mem_iff_getElem.mp hp with ⟨k, hk, hkp⟩
  have hklen : (l.eraseIdx ia).length = l.length - 1 := by
    rw [List.length_eraseIdx, if_pos hia]
  have hgl := List.getElem_eraseIdx l ia k hk
  by_cases h2 : k < ia
  · rw [dif_pos h2] at hgl
    have h4 : l[k] = p := hgl.symm.trans hkp
    have h3 : k = ia := huniq k (by omega) (by rw [h4]; exact hps)
    omega
  · rw [dif_neg h2] at hgl
    have h4 : l[k + 1] = p := hgl.symm.trans hkp
    have h3 : k + 1 = ia := huniq (k + 1) (by omega) (by rw [h4]; exact hps)
    omega

theorem colTriples_of_header_append (X : DF) (H : List (String × Dtype))
    (p0 : String × Dtype) (hX : X.header = H ++ [p0]) :
    colTriples X
      = H.enum.map (fun q => (q.2.1, q.2.2, colVals X q.1))
        ++ [(p0.1, p0.2, colVals X H.length)] := by
  unfold colTriples
  rw [hX, List.enum_append, List.map_append]
  rfl

theorem flatMap_dummies_name_ne (T : List (String × Dtype × List Value))
    (s : String)
    (hT : ∀ t ∈ T, t.1 ≠ s ∧ ∀ c : String, t.1 ++ "_" ++ c ≠ s) :
    s ∉ (T.flatMap (fun t => dummiesOfCol t.1 t.2.1 t.2.2)).map Prod.fst := by
  intro hs
  rcases List.mem_map.mp hs with ⟨p, hp, hps⟩
  rcases List.mem_flatMap.mp hp with ⟨t, ht, hpt⟩
  rcases dummiesOfCol_name t.1 t.2.1 t.2.2 p hpt with h1 | ⟨c, h1⟩
  · exact (hT t ht).1 (by rw [← h1]; exact hps)
  · exact (hT t ht).2 c (by rw [← h1]; exact hps)

/-- Names of the `age_group` dummy block. -/
theorem agBlock_names (vals : List Value) :
    (dummiesOfCol "age_group" (Dtype.cat ageGroupLevels) vals).map Prod.fst
      = ["age_group_Adult", "age_group_Senior", "age_group_Elder"] := by
  have h1 : ("age_group" ++ "_" ++ "Adult") = "age_group_Adult" := by decide
  have h2 : ("age_group" ++ "_" ++ "Senior") = "age_group_Senior" := by decide
  have h3 : ("age_group" ++ "_" ++ "Elder") = "age_group_Elder" := by decide
  simp only [dummiesOfCol, ageGroupLevels, List.drop_succ_cons, List.drop_zero,
    List.map_cons, List.map_nil, h1, h2, h3]

/-- How `get_dummies` sees a table whose last column is the binned
`age_group` while no earlier column name starts with the letters `age`:
the output contains no column named `age` and exactly one set of
`age_group` indicator columns — the 4 levels minus the dropped `Young`. -/
theorem getDummies_with_agBlock (X : DF) (H : List (String × Dtype))
    (hX : X.header = H ++ [("age_group", Dtype.cat ageGroupLevels)])
    (hH1 : ∀ p ∈ H, p.1 ≠ "age")
    (hH2 : ∀ p ∈ H, p.1.data.take 3 ≠ ['a', 'g', 'e']) :
    "age" ∉ (getDummies X).map Prod.fst
    ∧ ((getDummies X).map Prod.fst).count "age_group_Adult" = 1
    ∧ ((getDummies X).map Prod.fst).count "age_group_Senior" = 1
    ∧ ((getDummies X).map Prod.fst).count "age_group_Elder" = 1
    ∧ ((getDummies X).map Prod.fst).count "age_group_Young" = 0 := by
  have hT := colTriples_of_header_append X H
    ("age_group", Dtype.cat ageGroupLevels) hX
  have hgd : getDummies X
      = ((H.enum.map (fun q => (q.2.1, q.2.2, colVals X q.1))).filter
            (fun t => isNumericDt t.2.1)).flatMap
              (fun t => dummiesOfCol t.1 t.2.1 t.2.2)
        ++ (((H.enum.map (fun q => (q.2.1, q.2.2, colVals X q.1))).filter
            (fun t => !isNumericDt t.2.1)).flatMap
              (fun t => dummiesOfCol t.1 t.2.1 t.2.2)
          ++ dummiesOfCol "age_group" (Dtype.cat ageGroupLevels)
              (colVals X H.length)) := by
    unfold getDummies
    rw [hT, List.filter_append, List.filter_append, List.flatMap_append,
        List.flatMap_append]
    rw [show List.filter (fun t => isNumericDt t.2.1)
        [("age_group", Dtype.cat ageGroupLevels, colVals X H.length)]
        = [] from rfl]
    rw [show List.filter (fun t => !isNumericDt t.2.1)
        [("age_group", Dtype.cat ageGroupLevels, colVals X H.length)]
        = [("age_group", Dtype.cat ageGroupLevels, colVals X H.length)] from rfl]
    simp [List.append_assoc]
  have hTname : ∀ t ∈ H.enum.map (fun q : Nat × (String × Dtype) =>
      (q.2.1, q.2.2, colVals X q.1)), ∃ p ∈ H, t.1 = p.1 := by
    intro t ht
    rcases List.mem_map.mp ht with ⟨q, hq, hqt⟩
    exact ⟨q.2, enumFrom_snd_mem H 0 q hq, by rw [← hqt]⟩
  have hcond : ∀ s, s = "age" ∨ s ∈ ageGroupDummyNames →
      ∀ (T2 : List (String × Dtype × List Value)),
        (∀ t ∈ T2, ∃ p ∈ H, t.1 = p.1) →
        s ∉ (T2.flatMap (fun t => dummiesOfCol t.1 t.2.1 t.2.2)).map Prod.fst := by
    intro s hs T2 hT2
    apply flatMap_dummies_name_ne
    intro t ht
    rcases hT2 t ht with ⟨p, hpH, hpt⟩
    have hp1 : p.1 ≠ "age" := hH1 p hpH
    have hp2 : p.1.data.take 3 ≠ ['a', 'g', 'e'] := hH2 p hpH
    rcases hs with h | h
    · subst h
      refine ⟨by rw [hpt]; exact hp1, ?_⟩
      intro c
      rw [hpt]
      exact dummy_name_ne_age p.1 c
    · constructor
      · intro hEq
        apply hp2
        rw [← hpt, hEq]
        fin_cases h <;> decide
      · intro c hEq
        apply hp2
        rw [← hpt]
        refine dummy_name_take3 t.1 c s ?_ hEq
        fin_cases h <;> decide
  have hmem1 : ∀ s, s = "age" ∨ s ∈ ageGroupDummyNames →
      s ∉ (((H.enum.map (fun q : Nat × (String × Dtype) =>
        (q.2.1, q.2.2, colVals X q.1))).filter
          (fun t => isNumericDt t.2.1)).flatMap
            (fun t => dummiesOfCol t.1 t.2.1 t.2.2)).map Prod.fst := by
    intro s hs
    exact hcond s hs _ (fun t ht => hTname t (List.mem_filter.mp ht).1)
  have hmem2 : ∀ s, s = "age" ∨ s ∈ ageGroupDummyNames →
      s ∉ (((H.enum.map (fun q : Nat × (String × Dtype) =>
        (q.2.1, q.2.2, colVals X q.1))).filter
          (fun t => !isNumericDt t.2.1)).flatMap
            (fun t => dummiesOfCol t.1 t.2.1 t.2.2)).map Prod.fst := by
    intro s hs
    exact hcond s hs _ (fun t ht => hTname t (List.mem_filter.mp ht).1)
  have hnames : (getDummies X).map Prod.fst
      = (((H.enum.map (fun q : Nat × (String × Dtype) =>
          (q.2.1, q.2.2, colVals X q.1))).filter
            (fun t => isNumericDt t.2.1)).flatMap
              (fun t => dummiesOfCol t.1 t.2.1 t.2.2)).map Prod.fst
        ++ ((((H.enum.map (fun q : Nat × (String × Dtype) =>
          (q.2.1, q.2.2, colVals X q.1))).filter
            (fun t => !isNumericDt t.2.1)).flatMap
              (fun t => dummiesOfCol t.1 t.2.1 t.2.2)).map Prod.fst
          ++ ["age_group_Adult", "age_group_Senior", "age_group_Elder"]) := by
    rw [hgd, List.map_append, List.map_append, agBlock_names]
  constructor
  · rw [hnames]
    intro hmem
    rcases List.mem_append.mp hmem with h | h
    · exact hmem1 "age" (Or.inl rfl) h
    · rcases List.mem_append.mp h with h | h
      · exact hmem2 "age" (Or.inl rfl) h
      · exact absurd h (by decide)
  refine ⟨?_, ?_, ?_, ?_⟩ <;>
  · rw [hnames, List.count_append, List.count_append]
    rw [List.count_eq_zero.mpr (hmem1 _ (Or.inr (by decide)))]
    rw [List.count_eq_zero.mpr (hmem2 _ (Or.inr (by decide)))]
    decide

/-- The boundaries of the four buckets, as `pd.cut` computes them. -/
theorem cutAge_bucket_iffs (q : ℚ) :
    (cutAge (.num q) = .str "Young" ↔ (0 ≤ q ∧ q ≤ 30))
    ∧ (cutAge (.num q) = .str "Adult" ↔ (30 < q ∧ q ≤ 45))
    ∧ (cutAge (.num q) = .str "Senior" ↔ (45 < q ∧ q ≤ 60))
    ∧ (cutAge (.num q) = .str "Elder" ↔ (60 < q ∧ q ≤ 100)) := by
  refine ⟨⟨?_, ?_⟩, ⟨?_, ?_⟩, ⟨?_, ?_⟩, ⟨?_, ?_⟩⟩
  · intro hEq
    simp only [cutAge] at hEq
    split_ifs at hEq with h1 h2 h3 h4
    · exact h1
    · exact absurd (Value.str.inj hEq) (by decide)
    · exact absurd (Value.str.inj hEq) (by decide)
    · exact absurd (Value.str.inj hEq) (by decide)
  · intro hcond
    simp only [cutAge]
    rw [if_pos hcond]
  · intro hEq
    simp only [cutAge] at hEq
    split_ifs at hEq with h1 h2 h3 h4
    · exact absurd (Value.str.inj hEq) (by decide)
    · exact h2
    · exact absurd (Value.str.inj hEq) (by decide)
    · exact absurd (Value.str.inj hEq) (by decide)
  · intro hcond
    simp only [cutAge]
    rw [if_neg (by rintro ⟨h5, h6⟩; rcases hcond with ⟨h7, h8⟩; linarith),
        if_pos hcond]
  · intro hEq
    simp only [cutAge] at hEq
    split_ifs at hEq with h1 h2 h3 h4
    · exact absurd (Value.str.inj hEq) (by decide)
    · exact absurd (Value.str.inj hEq) (by decide)
    · exact h3
    · exact absurd (Value.str.inj hEq) (by decide)
  · intro hcond
    simp only [cutAge]
    rw [if_neg (by rintro ⟨h5, h6⟩; rcases hcond with ⟨h7, h8⟩; linarith),
        if_neg (by rintro ⟨h5, h6⟩; rcases hcond with ⟨h7, h8⟩; linarith),
        if_pos hcond]
  · intro hEq
    simp only [cutAge] at hEq
    split_ifs at hEq with h1 h2 h3 h4
    · exact absurd (Value.str.inj hEq) (by decide)
    · exact absurd (Value.str.inj hEq) (by decide)
    · exact absurd (Value.str.inj hEq) (by decide)
    · exact h4
  · intro hcond
    simp only [cutAge]
    rw [if_neg (by rintro ⟨h5, h6⟩; rcases hcond with ⟨h7, h8⟩; linarith),
        if_neg (by rintro ⟨h5, h6⟩; rcases hcond with ⟨h7, h8⟩; linarith),
        if_neg (by rintro ⟨h5, h6⟩; rcases hcond with ⟨h7, h8⟩; linarith),
        if_pos hcond]

/-- C4: with binning enabled and an `age` column present (uniquely named,
and no other column name starting with the letters "age"), every age in
`[0,100]` is assigned to exactly one of the four buckets with boundaries
`[0,30]`, `(30,45]`, `(45,60]`, `(60,100]` (lowest bound inclusive); on a
successful run the numeric `age` column is gone from the output, which
contains exactly one set of age-group indicator columns: the 4 category
levels minus the dropped reference level `Young`. -/
theorem C4_bin_age_columns (d h : Bool) (df : DF) (e : Encoded) (ia : Nat)
    (ha : colIdx df "age" = some ia)
    (huniq : ∀ j, (hj : j < df.header.length) → df.header[j].1 = "age" → j = ia)
    (hpre : ∀ p ∈ df.header, p.1 = "age" ∨ p.1.data.take 3 ≠ ['a', 'g', 'e'])
    (hok : preprocessCore d h true df = .ok e) :
    (∀ q : ℚ,
      (cutAge (.num q) = .str "Young" ↔ (0 ≤ q ∧ q ≤ 30))
      ∧ (cutAge (.num q) = .str "Adult" ↔ (30 < q ∧ q ≤ 45))
      ∧ (cutAge (.num q) = .str "Senior" ↔ (45 < q ∧ q ≤ 60))
      ∧ (cutAge (.num q) = .str "Elder" ↔ (60 < q ∧ q ≤ 100)))
    ∧ "age" ∉ e.cols.map Prod.fst
    ∧ (e.cols.map Prod.fst).count "age_group_Adult" = 1
    ∧ (e.cols.map Prod.fst).count "age_group_Senior" = 1
    ∧ (e.cols.map Prod.fst).count "age_group_Elder" = 1
    ∧ (e.cols.map Prod.fst).count "age_group_Young" = 0 := by
  rcases core_ok_inversion d h true df e hok with ⟨iy, hy, hcols, _⟩
  rcases colIdx_spec df "y" iy hy with ⟨hiy_lt, hiy_name⟩
  rcases colIdx_spec df "age" ia ha with ⟨hia_lt, hia_name⟩
  have hne : ia ≠ iy := by
    intro h1
    subst h1
    exact absurd (hia_name.symm.trans hiy_name) (by decide)
  have hh3 : (outlierStage h (stage3 iy (stage1 d df))).header = df.header := by
    rw [outlierStage_header, stage3_header, stage1_header]
  have hca3 : colIdx (outlierStage h (stage3 iy (stage1 d df))) "age"
      = some ia := by
    rw [colIdx_outlier3_eq]
    exact ha
  have hy3 : colIdx (outlierStage h (stage3 iy (stage1 d df))) "y"
      = some iy := by
    rw [colIdx_outlier3_eq]
    exact hy
  have hh4 : (binStage true (outlierStage h (stage3 iy (stage1 d df)))).header
      = df.header.eraseIdx ia ++ [("age_group", Dtype.cat ageGroupLevels)] := by
    rw [binStage_header_active _ ia hca3, hh3]
  have hy4 : colIdx (binStage true (outlierStage h (stage3 iy (stage1 d df)))) "y"
      = some (if iy < ia then iy else iy - 1) := by
    rw [colIdx_binStage_y _ true iy hy3, yIdxAfter_active _ ia iy hca3]
  have hiy2_lt : (if iy < ia then iy else iy - 1)
      < (df.header.eraseIdx ia).length := by
    rw [List.length_eraseIdx, if_pos hia_lt]
    by_cases hcase : iy < ia
    · rw [if_pos hcase]
      omega
    · rw [if_neg hcase]
      omega
  have hXheader : (dropColName "y"
      (binStage true (outlierStage h (stage3 iy (stage1 d df))))).header
      = ((df.header.eraseIdx ia).eraseIdx (if iy < ia then iy else iy - 1))
        ++ [("age_group", Dtype.cat ageGroupLevels)] := by
    unfold dropColName
    rw [hy4]
    simp only
    rw [hh4, List.eraseIdx_append_of_lt_length hiy2_lt]
  have hH1 : ∀ p ∈ (df.header.eraseIdx ia).eraseIdx
      (if iy < ia then iy else iy - 1), p.1 ≠ "age" := by
    intro p hp
    exact eraseIdx_name_ne df.header ia "age" hia_lt huniq p
      ((List.eraseIdx_sublist _ _).mem hp)
  have hH2 : ∀ p ∈ (df.header.eraseIdx ia).eraseIdx
      (if iy < ia then iy else iy - 1), p.1.data.take 3 ≠ ['a', 'g', 'e'] := by
    intro p hp
    have hpdf : p ∈ df.header :=
      (List.eraseIdx_sublist _ _).mem ((List.eraseIdx_sublist _ _).mem hp)
    rcases hpre p hpdf with h1 | h1
    · exact absurd h1 (hH1 p hp)
    · exact h1
  have hmain := getDummies_with_agBlock _ _ hXheader hH1 hH2
  rw [hcols]
  exact ⟨cutAge_bucket_iffs, hmain.1, hmain.2.1, hmain.2.2.1, hmain.2.2.2.1,
    hmain.2.2.2.2⟩

theorem C4_bin_age_columns_witness :
    (colIdx cdfDup "age" = some 0
      ∧ (∀ j, (hj : j < cdfDup.header.length) → cdfDup.header[j].1 = "age" → j = 0)
      ∧ (∀ p ∈ cdfDup.header, p.1 = "age" ∨ p.1.data.take 3 ≠ ['a', 'g', 'e'])
      ∧ preprocessCore true true true cdfDup = .ok e6c)
    ∧ ((∀ q : ℚ,
        (cutAge (.num q) = .str "Young" ↔ (0 ≤ q ∧ q ≤ 30))
        ∧ (cutAge (.num q) = .str "Adult" ↔ (30 < q ∧ q ≤ 45))
        ∧ (cutAge (.num q) = .str "Senior" ↔ (45 < q ∧ q ≤ 60))
        ∧ (cutAge (.num q) = .str "Elder" ↔ (60 < q ∧ q ≤ 100)))
      ∧ "age" ∉ e6c.cols.map Prod.fst
      ∧ (e6c.cols.map Prod.fst).count "age_group_Adult" = 1
      ∧ (e6c.cols.map Prod.fst).count "age_group_Senior" = 1
      ∧ (e6c.cols.map Prod.fst).count "age_group_Elder" = 1
      ∧ (e6c.cols.map Prod.fst).count "age_group_Young" = 0) :=
  ⟨⟨by decide, by decide, by decide, cdfDup_run⟩,
   C4_bin_age_columns true true cdfDup e6c 0 (by decide) (by decide) (by decide)
     cdfDup_run⟩

end BankPrep
